import Mathlib

/-!
# TrenchBroom: entity attribute grid and entity model

A shallow embedding of `common/src/View/EntityAttributeGrid.cpp` and of the
inline templates of `src/Model/Entity.h`, together with models of the
collaborators those files call (document, transaction, notifier, property
store) where their code is not part of the sources at hand.

Definitions come first, theorems afterwards.
-/

set_option autoImplicit false

namespace TrenchBroom

/-! ## Definitions -/

namespace Model

/-- The type `PropertyKey` of `Model/ModelTypes.h`: a string. -/
abbrev PropertyKey := String

/-- The type `PropertyValue` of `Model/ModelTypes.h`: a string. -/
abbrev PropertyValue := String

/-- The type `EntityProperty`: one key/value entry. -/
structure EntityProperty where
  key : PropertyKey
  value : PropertyValue
  deriving DecidableEq, Repr

/-- Modelled from the spec: `EntityProperties` (`Model/EntityProperties.h`) is
not among the sources. It is the PropertyStore of the spec: an ordered list of
key/value entries, looked up by key. -/
structure PropertyStore where
  entries : List EntityProperty
  deriving DecidableEq, Repr

namespace PropertyStore

/-- Modelled from the spec: the empty store of a newly created entity. -/
def empty : PropertyStore := ⟨[]⟩

/-- Modelled from the spec: `keys() -> ordered sequence of key`. -/
def keys (s : PropertyStore) : List PropertyKey :=
  s.entries.map EntityProperty.key

/-- Modelled from the spec: whether `key` has an entry (keys are compared as
strings, hence case-sensitively). -/
def contains (s : PropertyStore) (key : PropertyKey) : Bool :=
  s.entries.any (fun p => p.key == key)

/-- The first entry stored under `key`, if any. -/
def findEntry : List EntityProperty → PropertyKey → Option EntityProperty
  | [], _ => none
  | p :: rest, key => if p.key = key then some p else findEntry rest key

/-- Modelled from the spec: `get(key, default) -> value` returns `default` if
the key is absent and never fails. -/
def get (s : PropertyStore) (key : PropertyKey) (defaultValue : PropertyValue) :
    PropertyValue :=
  match findEntry s.entries key with
  | some p => p.value
  | none => defaultValue

/-- Overwrite the entry under `key` in place, or append a new entry at the end;
the flag tells whether the key was newly created. -/
def setEntry : List EntityProperty → PropertyKey → PropertyValue →
    Bool × List EntityProperty
  | [], key, value => (true, [⟨key, value⟩])
  | p :: rest, key, value =>
    if p.key = key then (false, ⟨key, value⟩ :: rest)
    else ((setEntry rest key value).1, p :: (setEntry rest key value).2)

/-- Modelled from the spec: `set(key, value)` inserts or overwrites and returns
whether the key was newly created; insertion order is preserved. -/
def set (s : PropertyStore) (key : PropertyKey) (value : PropertyValue) :
    Bool × PropertyStore :=
  ((setEntry s.entries key value).1, ⟨(setEntry s.entries key value).2⟩)

/-- Modelled from the spec: `remove(key) -> bool`, false if the key is absent. -/
def remove (s : PropertyStore) (key : PropertyKey) : Bool × PropertyStore :=
  (s.contains key, ⟨s.entries.filter (fun p => !(p.key == key))⟩)

end PropertyStore

/-- The type `BrushPtr`: a brush, by identity. -/
abbrev BrushPtr := Nat

/-- The data members of `Entity` (`Model/Entity.h`, lines 41-42). -/
structure Entity where
  m_properties : PropertyStore
  m_brushes : List BrushPtr
  deriving DecidableEq, Repr

namespace Entity

/-- Modelled from the spec: `Entity::newEntity` (body not among the sources)
allocates an entity with an empty property store and no brushes. -/
def newEntity : Entity := ⟨PropertyStore.empty, []⟩

/-- Modelled from the spec: `Entity::properties` (body not among the sources),
the entries of the store in order. -/
def properties (e : Entity) : List EntityProperty :=
  e.m_properties.entries

/-- Modelled from the spec: `Entity::hasProperty` (body not among the sources). -/
def hasProperty (e : Entity) (key : PropertyKey) : Bool :=
  e.m_properties.contains key

/-- Modelled from the spec: `Entity::property` (body not among the sources) is
`get(key, default)` on the entity's store. -/
def property (e : Entity) (key : PropertyKey) (defaultValue : PropertyValue) :
    PropertyValue :=
  e.m_properties.get key defaultValue

/-- The call of `Entity::property` with the default argument omitted;
`DefaultPropertyValue` is the static constant of `Entity`, whose value is not
among the sources. -/
def propertyOrDefault (DefaultPropertyValue : PropertyValue) (e : Entity)
    (key : PropertyKey) : PropertyValue :=
  e.property key DefaultPropertyValue

/-- Modelled from the spec: `Entity::addOrUpdateProperty` (body not among the
sources) is `set(key, value)` on the entity's store. -/
def addOrUpdateProperty (e : Entity) (key : PropertyKey) (value : PropertyValue) :
    Entity :=
  ⟨(e.m_properties.set key value).2, e.m_brushes⟩

/-- Modelled from the spec: `Entity::brushes` (body not among the sources), the
owned brushes in list order. -/
def brushes (e : Entity) : List BrushPtr :=
  e.m_brushes

/-- The loop of `eachBrush` (lines 64-69): every brush in turn is tested with
`filter` and `op` is applied to those that pass. Both are arbitrary callables on
shared, mutable brushes: `σ` is the state they act on, which `op` may change and
`filter` reads as the earlier calls of `op` left it. -/
def eachBrushLoop {σ : Type} (op : σ → BrushPtr → σ) (filter : σ → BrushPtr → Bool) :
    List BrushPtr → σ → σ
  | [], s => s
  | brush :: rest, s =>
    if filter s brush then eachBrushLoop op filter rest (op s brush)
    else eachBrushLoop op filter rest s

/-- Embedding of `Entity::eachBrush(const Operator&, const Filter&)` (lines 62-70). -/
def eachBrushConst {σ : Type} (e : Entity) (op : σ → BrushPtr → σ)
    (filter : σ → BrushPtr → Bool) (s : σ) : σ :=
  eachBrushLoop op filter e.m_brushes s

/-- Embedding of `Entity::eachBrush(Operator&, const Filter&)` (lines 72-80). -/
def eachBrush {σ : Type} (e : Entity) (op : σ → BrushPtr → σ)
    (filter : σ → BrushPtr → Bool) (s : σ) : σ :=
  eachBrushLoop op filter e.m_brushes s

/-- Following the spec's words: the lazy sequence of owned brushes composed with
a predicate. Asked for its next element in state `s`, it skips the brushes the
predicate rejects and yields the first it accepts, with the brushes after it. -/
def nextSelected {σ : Type} (filter : σ → BrushPtr → Bool) (s : σ) :
    List BrushPtr → Option (BrushPtr × List BrushPtr)
  | [] => none
  | brush :: rest => if filter s brush then some (brush, rest) else nextSelected filter s rest

/-- Following the spec's words: `op` iterated over the lazy sequence, one element
pulled at a time; `fuel` bounds the number of elements pulled. -/
def forEachSelected {σ : Type} (op : σ → BrushPtr → σ) (filter : σ → BrushPtr → Bool) :
    Nat → List BrushPtr → σ → σ
  | 0, _, s => s
  | fuel + 1, remaining, s =>
    match nextSelected filter s remaining with
    | none => s
    | some (brush, rest) => forEachSelected op filter fuel rest (op s brush)

/-- Following the spec's words: traversal and filtering kept apart, `op` iterated
over the sequence of `brushes()` selected by the predicate. There are at most as
many elements as brushes. -/
def eachBrushSpec {σ : Type} (e : Entity) (op : σ → BrushPtr → σ)
    (filter : σ → BrushPtr → Bool) (s : σ) : σ :=
  forEachSelected op filter e.brushes.length e.brushes s

/-- The entity reached from a new entity by a sequence of
`addOrUpdateProperty` calls. -/
def afterUpdates (calls : List (PropertyKey × PropertyValue)) : Entity :=
  calls.foldl (fun e c => e.addOrUpdateProperty c.1 c.2) newEntity

end Entity

/-- Modelled from the spec: the scene graph as an arena. Entities are looked up
by identity, and every brush carries a non-owning back-reference to its owning
entity (`none` while it has no owner). -/
structure SceneGraph where
  entities : Nat → Entity
  owner : BrushPtr → Option Nat

namespace SceneGraph

/-- A scene graph of new entities: no entity owns a brush. -/
def initial : SceneGraph := ⟨fun _ => Entity.newEntity, fun _ => none⟩

/-- The brush list of entity `a`. -/
def brushesOf (g : SceneGraph) (a : Nat) : List BrushPtr :=
  (g.entities a).brushes

/-- Replace the brush list of entity `a`. -/
def setBrushes (g : SceneGraph) (a : Nat) (brushes : List BrushPtr) : SceneGraph :=
  ⟨fun x => if x = a then ⟨(g.entities a).m_properties, brushes⟩ else g.entities x, g.owner⟩

/-- Set the back-reference of `brush`. -/
def setOwner (g : SceneGraph) (brush : BrushPtr) (o : Option Nat) : SceneGraph :=
  ⟨g.entities, fun b => if b = brush then o else g.owner b⟩

/-- Take `brush` out of the brush list of entity `a`. -/
def detach (g : SceneGraph) (a : Nat) (brush : BrushPtr) : SceneGraph :=
  g.setBrushes a ((g.brushesOf a).erase brush)

/-- Modelled from the spec: `addBrush(entity, brush)` (body of `Entity::addBrush`
not among the sources) transfers ownership of `brush` to entity `a`: a prior
owner has it removed from its list first, then `a` appends it. -/
def addBrush (g : SceneGraph) (a : Nat) (brush : BrushPtr) : SceneGraph :=
  let released := match g.owner brush with
    | some prior => g.detach prior brush
    | none => g
  (released.setBrushes a (released.brushesOf a ++ [brush])).setOwner brush (some a)

/-- Modelled from the spec: `removeBrush(entity, brush)` (body of
`Entity::removeBrush` not among the sources) detaches the brush; it is a no-op
reporting failure if `brush` is not currently owned by `a`. -/
def removeBrush (g : SceneGraph) (a : Nat) (brush : BrushPtr) : Bool × SceneGraph :=
  if g.owner brush = some a then (true, (g.detach a brush).setOwner brush none)
  else (false, g)

/-- A call of `addBrush` or `removeBrush` on some entity. -/
inductive BrushCall where
  | addBrush (entity : Nat) (brush : BrushPtr)
  | removeBrush (entity : Nat) (brush : BrushPtr)
  deriving DecidableEq, Repr

/-- Apply one call. -/
def step (g : SceneGraph) : BrushCall → SceneGraph
  | BrushCall.addBrush a b => g.addBrush a b
  | BrushCall.removeBrush a b => (g.removeBrush a b).2

/-- The state reached from `initial` by a sequence of calls. -/
def reached (calls : List BrushCall) : SceneGraph :=
  calls.foldl step initial

/-- Ownership is consistent: brush lists have no repetition, and a brush is in
the list of an entity exactly when its back-reference names that entity. -/
def Consistent (g : SceneGraph) : Prop :=
  (∀ a, (g.brushesOf a).Nodup) ∧ (∀ a b, b ∈ g.brushesOf a ↔ g.owner b = some a)

end SceneGraph

end Model

namespace View

/-- What `removeSelectedAttributes` does to its collaborators, in program order. -/
inductive TxEvent where
  | begin (name : String)
  | removeAttribute (name : String) (result : Bool)
  | rollback
  | scopeExit
  deriving DecidableEq, Repr

/-- The operations of `MapDocument` and `Transaction` that
`removeSelectedAttributes` calls, over an arbitrary document state `D`.
`beginTransaction` is the `Transaction` constructor, `rollback` is
`Transaction::rollback`, `endTransaction` is the `Transaction` destructor
running at the end of the inner block. -/
structure DocumentOps (D : Type) where
  beginTransaction : D → String → D
  removeAttribute : D → String → Bool × D
  rollback : D → D
  endTransaction : D → D

/-- A document state together with the calls made on it so far. -/
structure Run (D : Type) where
  document : D
  events : List TxEvent

/-- Modelled from the spec: `StringUtils::safePlural` is not among the sources;
it picks the singular for a count of one and the plural otherwise. -/
def safePlural (count : Nat) (singular plural : String) : String :=
  if count = 1 then singular else plural

/-- The loop of lines 95-97: `success = success && document->removeAttribute(attribute)`.
The `&&` short-circuits, so once `success` is false no further call is made. -/
def removeLoop {D : Type} (ops : DocumentOps D) :
    List String → Bool → Run D → Bool × Run D
  | [], success, run => (success, run)
  | name :: rest, success, run =>
    if success then
      let res := ops.removeAttribute run.document name
      removeLoop ops rest res.1
        ⟨res.2, run.events ++ [TxEvent.removeAttribute name res.1]⟩
    else
      removeLoop ops rest false run

/-- Lines 88-102 of `removeSelectedAttributes`: the transaction block run on the
collected attribute names. -/
def removeAttributes {D : Type} (ops : DocumentOps D) (attributes : List String)
    (document : D) : Run D :=
  let numRows := attributes.length
  let name := safePlural numRows "Remove Attribute" "Remove Attributes"
  let started : Run D := ⟨ops.beginTransaction document name, [TxEvent.begin name]⟩
  let looped := removeLoop ops attributes true started
  let finished : Run D :=
    if !looped.1 then
      ⟨ops.rollback looped.2.document, looped.2.events ++ [TxEvent.rollback]⟩
    else
      looped.2
  ⟨ops.endTransaction finished.document, finished.events ++ [TxEvent.scopeExit]⟩

/-- Lines 81-86: the attribute names of the selected rows, in the iteration
order of the `std::set<int>`. `attributeName` is `m_model->attributeName`. -/
def collectAttributes (attributeName : Int → String) (selectedRows : List Int) :
    List String :=
  selectedRows.foldl (fun names row => names ++ [attributeName row]) []

/-- The body of `EntityAttributeGrid::removeSelectedAttributes` after the
assertion, for the row set `selectedRows` returned by `selectedRowsAndCursorRow`. -/
def removeSelectedAttributes {D : Type} (ops : DocumentOps D)
    (attributeName : Int → String) (selectedRows : List Int) (document : D) : Run D :=
  removeAttributes ops (collectAttributes attributeName selectedRows) document

/-- Following the claim's words: the `removeAttribute` calls made inside the
transaction. The selected attributes are taken in order, each removal is made
on the document the previous one left, and the first removal that reports
failure is the last one made. Each entry is the attribute and what its removal
reported. -/
def removalsMade {D : Type} (ops : DocumentOps D) : List String → D → List (String × Bool)
  | [], _ => []
  | name :: rest, d =>
    if (ops.removeAttribute d name).1 then
      (name, true) :: removalsMade ops rest (ops.removeAttribute d name).2
    else [(name, false)]

/-- Following the claim's words: the document left by the removals made. -/
def documentAfterRemovals {D : Type} (ops : DocumentOps D) : List String → D → D
  | [], d => d
  | name :: rest, d =>
    if (ops.removeAttribute d name).1 then
      documentAfterRemovals ops rest (ops.removeAttribute d name).2
    else (ops.removeAttribute d name).2

/-- A document whose removals report what a prescribed list of outcomes says, the
first removal the first outcome and so on (a removal past the end of the list
reports success). It stands for every pattern of outcomes of the removals. -/
def oracleOps : DocumentOps (List Bool) where
  beginTransaction := fun outcomes _ => outcomes
  removeAttribute := fun outcomes _ => (outcomes.headD true, outcomes.tail)
  rollback := fun outcomes => outcomes
  endTransaction := fun outcomes => outcomes

/-- Modelled from the spec: an attributable node of the document as far as the
attribute grid is concerned: whether it is among the selected attributable
nodes, and its property store. -/
structure AttributableNode where
  selected : Bool
  attributes : Model.PropertyStore
  deriving DecidableEq, Repr

/-- Modelled from the spec: a mutation record holds the before-value of the step
it records: the node (by position in the document) and its prior store. -/
structure MutationRecord where
  node : Nat
  before : Model.PropertyStore
  deriving DecidableEq, Repr

/-- Modelled from the spec: `Transaction` is (name, mutation records, state); the
log is kept most recent first. -/
structure Transaction where
  name : String
  log : List MutationRecord
  rolledBack : Bool
  deriving DecidableEq, Repr

/-- Modelled from the spec: `MapDocument` (`View/MapDocument.h`) is not among the
sources. The document is its nodes and the transactions currently open on it,
innermost first; the list is empty when no transaction is open. -/
structure MapDocument where
  nodes : List AttributableNode
  transactions : List Transaction
  deriving DecidableEq, Repr

namespace MapDocument

/-- Modelled from the spec: `begin(name)` opens a transaction with an empty log.
Begun while another transaction is open, it is nested in that one: it keeps its
own log until it ends, when the log is merged into the outer transaction's. -/
def beginTransaction (doc : MapDocument) (name : String) : MapDocument :=
  ⟨doc.nodes, ⟨name, [], false⟩ :: doc.transactions⟩

/-- One pass of a removal over the nodes of the document, in order: `done` are
the nodes already visited, the second list the nodes still to visit. Every
selected node has `remove(key)` applied and its prior store logged; the flag
stays true while no step reported failure. -/
def removePass (key : String) :
    List AttributableNode → List AttributableNode → Bool → List MutationRecord →
      Bool × List AttributableNode × List MutationRecord
  | done, [], ok, log => (ok, done, log)
  | done, n :: rest, ok, log =>
    if n.selected then
      removePass key (done ++ [⟨n.selected, (n.attributes.remove key).2⟩]) rest
        (ok && (n.attributes.remove key).1) (⟨done.length, n.attributes⟩ :: log)
    else
      removePass key (done ++ [n]) rest ok log

/-- Modelled from the spec: the mutation `removeProperty` of the document. It
removes the key from every selected attributable node, appending a record per
step to the log of the innermost open transaction, and reports failure if a step
did (`remove` returns false for an absent key). Without an open transaction the
call is rejected and nothing changes. -/
def removeAttribute (doc : MapDocument) (key : String) : Bool × MapDocument :=
  match doc.transactions with
  | [] => (false, doc)
  | t :: outer =>
    if t.rolledBack then (false, doc)
    else
      let r := removePass key [] doc.nodes true t.log
      (r.1, ⟨r.2.1, ⟨t.name, r.2.2, false⟩ :: outer⟩)

/-- Put the prior store back on the node at position `i`. -/
def restoreAt : List AttributableNode → Nat → Model.PropertyStore → List AttributableNode
  | [], _, _ => []
  | n :: rest, 0, before => ⟨n.selected, before⟩ :: rest
  | n :: rest, i + 1, before => n :: restoreAt rest i before

/-- Reverse one mutation record. -/
def undo (nodes : List AttributableNode) (r : MutationRecord) : List AttributableNode :=
  restoreAt nodes r.node r.before

/-- Modelled from the spec: `rollback()` replays the mutation log of the
transaction in reverse, restoring each prior value, and publishes nothing. The
transactions around it are not touched. -/
def rollback (doc : MapDocument) : MapDocument :=
  match doc.transactions with
  | [] => doc
  | t :: outer => ⟨t.log.foldl undo doc.nodes, ⟨t.name, [], true⟩ :: outer⟩

/-- Modelled from the spec: the transaction ends when its object is destroyed. A
committed one hands its records to the transaction around it, if any, with which
it forms one atomic unit; a rolled-back one has none left to hand over. -/
def endTransaction (doc : MapDocument) : MapDocument :=
  match doc.transactions with
  | [] => doc
  | [_] => ⟨doc.nodes, []⟩
  | t :: o :: rest => ⟨doc.nodes, ⟨o.name, t.log ++ o.log, o.rolledBack⟩ :: rest⟩

/-- The document and transaction operations `removeSelectedAttributes` calls. -/
def ops : DocumentOps MapDocument where
  beginTransaction := beginTransaction
  removeAttribute := removeAttribute
  rollback := rollback
  endTransaction := endTransaction

end MapDocument

/-- The member functions of `EntityAttributeGrid` registered as callbacks. -/
inductive GridCallback where
  | documentWasNewed
  | documentWasLoaded
  | nodesDidChange
  | selectionWillChange
  | selectionDidChange
  deriving DecidableEq, Repr

/-- An observer as passed to `addObserver` / `removeObserver`: the receiving
object (`this`, by identity) and the member function to call. -/
structure Observer where
  receiver : Nat
  callback : GridCallback
  deriving DecidableEq, Repr

/-- Modelled from the spec: `Notifier` is not among the sources. A channel is the
list of its subscriptions, in subscription order. -/
structure Notifier where
  observers : List Observer
  deriving DecidableEq, Repr

namespace Notifier

/-- Modelled from the spec: `subscribe(channel, observer)`; the observer is
appended, publishing being in subscription order. -/
def addObserver (n : Notifier) (o : Observer) : Notifier :=
  ⟨n.observers ++ [o]⟩

/-- Modelled from the spec: `unsubscribe`; the subscription of the given
(receiver, callback) pair is removed, the first one found. -/
def removeObserver (n : Notifier) (o : Observer) : Notifier :=
  ⟨n.observers.erase o⟩

end Notifier

/-- The notifiers of `MapDocument`: the five that `EntityAttributeGrid` names, and
`otherNotifiers` standing for every notifier of the document it never names. -/
structure DocumentNotifiers where
  documentWasNewedNotifier : Notifier
  documentWasLoadedNotifier : Notifier
  nodesDidChangeNotifier : Notifier
  selectionWillChangeNotifier : Notifier
  selectionDidChangeNotifier : Notifier
  otherNotifiers : List Notifier
  deriving DecidableEq, Repr

/-- Embedding of `EntityAttributeGrid::bindObservers` (lines 242-249); `self` is `this`. -/
def bindObservers (self : Nat) (document : DocumentNotifiers) : DocumentNotifiers :=
  let d1 := { document with documentWasNewedNotifier :=
    document.documentWasNewedNotifier.addObserver ⟨self, GridCallback.documentWasNewed⟩ }
  let d2 := { d1 with documentWasLoadedNotifier :=
    d1.documentWasLoadedNotifier.addObserver ⟨self, GridCallback.documentWasLoaded⟩ }
  let d3 := { d2 with nodesDidChangeNotifier :=
    d2.nodesDidChangeNotifier.addObserver ⟨self, GridCallback.nodesDidChange⟩ }
  let d4 := { d3 with selectionWillChangeNotifier :=
    d3.selectionWillChangeNotifier.addObserver ⟨self, GridCallback.selectionWillChange⟩ }
  { d4 with selectionDidChangeNotifier :=
    d4.selectionDidChangeNotifier.addObserver ⟨self, GridCallback.selectionDidChange⟩ }

/-- Embedding of `EntityAttributeGrid::unbindObservers` (lines 251-260). The weak pointer
`m_document` is `none` when expired, in which case nothing is done. -/
def unbindObservers (self : Nat) (m_document : Option DocumentNotifiers) :
    Option DocumentNotifiers :=
  match m_document with
  | none => none
  | some document =>
    let d1 := { document with documentWasNewedNotifier :=
      document.documentWasNewedNotifier.removeObserver ⟨self, GridCallback.documentWasNewed⟩ }
    let d2 := { d1 with documentWasLoadedNotifier :=
      d1.documentWasLoadedNotifier.removeObserver ⟨self, GridCallback.documentWasLoaded⟩ }
    let d3 := { d2 with nodesDidChangeNotifier :=
      d2.nodesDidChangeNotifier.removeObserver ⟨self, GridCallback.nodesDidChange⟩ }
    let d4 := { d3 with selectionWillChangeNotifier :=
      d3.selectionWillChangeNotifier.removeObserver ⟨self, GridCallback.selectionWillChange⟩ }
    some { d4 with selectionDidChangeNotifier :=
      d4.selectionDidChangeNotifier.removeObserver ⟨self, GridCallback.selectionDidChange⟩ }

/-- The grid `self` has no subscription on any of the five notifiers, as is the
case before it is constructed. -/
def NotSubscribed (self : Nat) (document : DocumentNotifiers) : Prop :=
  (∀ o ∈ document.documentWasNewedNotifier.observers, o.receiver ≠ self) ∧
  (∀ o ∈ document.documentWasLoadedNotifier.observers, o.receiver ≠ self) ∧
  (∀ o ∈ document.nodesDidChangeNotifier.observers, o.receiver ≠ self) ∧
  (∀ o ∈ document.selectionWillChangeNotifier.observers, o.receiver ≠ self) ∧
  (∀ o ∈ document.selectionDidChangeNotifier.observers, o.receiver ≠ self)

/-- The type `QModelIndex` as far as the grid uses it: validity, row and column. -/
structure QModelIndex where
  valid : Bool
  row : Int
  column : Int
  deriving DecidableEq, Repr

/-- Insertion into a `std::set<int>`: the set is kept as an ascending list without
repetition. -/
def setInsert (x : Int) : List Int → List Int
  | [] => [x]
  | y :: ys =>
    if x < y then x :: y :: ys
    else if x = y then y :: ys
    else y :: setInsert x ys

/-- Embedding of `EntityAttributeGrid::selectedRowsAndCursorRow` (lines 120-140).
`mapToSource` is `m_proxyModel->mapToSource`, `currentIndex` and
`selectedIndexes` are those of the table's selection model. -/
def selectedRowsAndCursorRow (mapToSource : QModelIndex → QModelIndex)
    (currentIndex : QModelIndex) (selectedIndexes : List QModelIndex) : List Int :=
  let currentIndexInSource := mapToSource currentIndex
  let result : List Int :=
    if currentIndexInSource.valid then setInsert currentIndexInSource.row [] else []
  selectedIndexes.foldl
    (fun result index =>
      let indexInSource := mapToSource index
      if indexInSource.valid then setInsert indexInSource.row result else result)
    result

/-- The loop of `canRemoveSelectedAttributes` (lines 110-114). -/
def canRemoveLoop (canRemove : Int → Bool) : List Int → Bool
  | [] => true
  | row :: rest => if !canRemove row then false else canRemoveLoop canRemove rest

/-- Embedding of `EntityAttributeGrid::canRemoveSelectedAttributes` (lines 105-115).
`canRemove` is `m_model->canRemove`. -/
def canRemoveSelectedAttributes (canRemove : Int → Bool)
    (mapToSource : QModelIndex → QModelIndex) (currentIndex : QModelIndex)
    (selectedIndexes : List QModelIndex) : Bool :=
  let rows := selectedRowsAndCursorRow mapToSource currentIndex selectedIndexes
  if rows.isEmpty then false
  else canRemoveLoop canRemove rows

/-- The state of an `EntityAttributeGrid`: what its model, proxy model and
selection model currently answer, the enabled flags of its widgets and shortcuts,
and whether a call of `updateFromMapDocument` is queued. -/
structure EntityAttributeGrid where
  canRemove : Int → Bool
  mapToSource : QModelIndex → QModelIndex
  currentIndex : QModelIndex
  selectedIndexes : List QModelIndex
  tableEnabled : Bool
  addAttributeButtonEnabled : Bool
  removePropertiesButtonEnabled : Bool
  insertRowShortcutEnabled : Bool
  removeRowShortcutEnabled : Bool
  removeRowAlternateShortcutEnabled : Bool
  updateQueued : Bool

namespace EntityAttributeGrid

/-- The member function `canRemoveSelectedAttributes` on the state of the grid. -/
def canRemoveSelected (g : EntityAttributeGrid) : Bool :=
  canRemoveSelectedAttributes g.canRemove g.mapToSource g.currentIndex g.selectedIndexes

/-- Embedding of `EntityAttributeGrid::updateShortcuts` (lines 236-240). -/
def updateShortcuts (g : EntityAttributeGrid) : EntityAttributeGrid :=
  { g with
    insertRowShortcutEnabled := true
    removeRowShortcutEnabled := g.canRemoveSelected
    removeRowAlternateShortcutEnabled := g.canRemoveSelected }

/-- Embedding of `EntityAttributeGrid::updateControls` (lines 281-298). `nodesEmpty` is
`document->allSelectedAttributableNodes().empty()`. The model refresh is only
queued. -/
def updateControls (g : EntityAttributeGrid) (nodesEmpty : Bool) : EntityAttributeGrid :=
  updateShortcuts
    { g with
      updateQueued := true
      tableEnabled := !nodesEmpty
      addAttributeButtonEnabled := !nodesEmpty
      removePropertiesButtonEnabled := !nodesEmpty && g.canRemoveSelected }

/-- The constructor (lines 45-52): widgets and shortcuts are created enabled,
nothing is current or selected, and `updateShortcuts` runs once. -/
def construct (canRemove : Int → Bool) (mapToSource : QModelIndex → QModelIndex) :
    EntityAttributeGrid :=
  updateShortcuts
    { canRemove := canRemove
      mapToSource := mapToSource
      currentIndex := ⟨false, -1, -1⟩
      selectedIndexes := []
      tableEnabled := true
      addAttributeButtonEnabled := true
      removePropertiesButtonEnabled := true
      insertRowShortcutEnabled := true
      removeRowShortcutEnabled := true
      removeRowAlternateShortcutEnabled := true
      updateQueued := false }

/-- What can happen to a grid: the five document notifications (carrying whether
the selected attributable nodes are empty at that time), a change of the table's
current index or selection, the queued `updateFromMapDocument` running (after
which model, proxy and selection answer anew), and the three removal triggers. -/
inductive Event where
  | documentWasNewed (nodesEmpty : Bool)
  | documentWasLoaded (nodesEmpty : Bool)
  | nodesDidChange (nodesEmpty : Bool)
  | selectionWillChange
  | selectionDidChange (nodesEmpty : Bool)
  | currentChanged (currentIndex : QModelIndex) (selectedIndexes : List QModelIndex)
  | updateFromMapDocument (canRemove : Int → Bool) (mapToSource : QModelIndex → QModelIndex)
      (currentIndex : QModelIndex) (selectedIndexes : List QModelIndex)
  | removeButtonClicked
  | deleteShortcutActivated
  | backspaceShortcutActivated

/-- The assertion opening `removeSelectedAttributes` (line 79): `none` when it
fails. The removal itself reaches the grid through the document notifications
that follow it. -/
def assertCanRemove (g : EntityAttributeGrid) : Option EntityAttributeGrid :=
  if g.canRemoveSelected then some g else none

/-- The handler the grid runs for an event (lines 177-195, 216-233, 262-279). A
disabled button or shortcut does not fire. -/
def handle (g : EntityAttributeGrid) : Event → Option EntityAttributeGrid
  | Event.documentWasNewed nodesEmpty => some (g.updateControls nodesEmpty)
  | Event.documentWasLoaded nodesEmpty => some (g.updateControls nodesEmpty)
  | Event.nodesDidChange nodesEmpty => some (g.updateControls nodesEmpty)
  | Event.selectionWillChange => some g
  | Event.selectionDidChange nodesEmpty => some (g.updateControls nodesEmpty)
  | Event.currentChanged currentIndex selectedIndexes =>
    some { g with currentIndex := currentIndex, selectedIndexes := selectedIndexes }
  | Event.updateFromMapDocument canRemove mapToSource currentIndex selectedIndexes =>
    some { g with
      canRemove := canRemove
      mapToSource := mapToSource
      currentIndex := currentIndex
      selectedIndexes := selectedIndexes
      updateQueued := false }
  | Event.removeButtonClicked =>
    if g.removePropertiesButtonEnabled then g.assertCanRemove else some g
  | Event.deleteShortcutActivated =>
    if g.removeRowShortcutEnabled then g.assertCanRemove else some g
  | Event.backspaceShortcutActivated =>
    if g.removeRowAlternateShortcutEnabled then g.assertCanRemove else some g

/-- Run a sequence of events; `none` as soon as the assertion fails. -/
def run (g : EntityAttributeGrid) : List Event → Option EntityAttributeGrid
  | [] => some g
  | e :: rest =>
    match g.handle e with
    | some next => run next rest
    | none => none

end EntityAttributeGrid

end View

/-! ## Theorems -/

namespace Model

theorem findEntry_none_iff (entries : List EntityProperty) (key : PropertyKey) :
    PropertyStore.findEntry entries key = none ↔ key ∉ entries.map EntityProperty.key := by
  induction entries with
  | nil => simp [PropertyStore.findEntry]
  | cons p rest ih =>
    by_cases h : p.key = key
    · simp [PropertyStore.findEntry, h]
    · have h2 : ¬ key = p.key := fun e => h e.symm
      simp [PropertyStore.findEntry, h, h2, ih]

theorem contains_iff (s : PropertyStore) (key : PropertyKey) :
    s.contains key = true ↔ key ∈ s.keys := by
  simp only [PropertyStore.contains, PropertyStore.keys, List.any_eq_true, List.mem_map,
    beq_iff_eq]

theorem findEntry_setEntry_self (entries : List EntityProperty) (key : PropertyKey)
    (value : PropertyValue) :
    PropertyStore.findEntry (PropertyStore.setEntry entries key value).2 key
      = some ⟨key, value⟩ := by
  induction entries with
  | nil => simp [PropertyStore.setEntry, PropertyStore.findEntry]
  | cons p rest ih =>
    by_cases h : p.key = key
    · simp [PropertyStore.setEntry, PropertyStore.findEntry, h]
    · simp [PropertyStore.setEntry, PropertyStore.findEntry, h, ih]

theorem keys_setEntry (entries : List EntityProperty) (key : PropertyKey)
    (value : PropertyValue) :
    (PropertyStore.setEntry entries key value).2.map EntityProperty.key
      = if key ∈ entries.map EntityProperty.key then entries.map EntityProperty.key
        else entries.map EntityProperty.key ++ [key] := by
  induction entries with
  | nil => simp [PropertyStore.setEntry]
  | cons p rest ih =>
    by_cases h : p.key = key
    · simp [PropertyStore.setEntry, h]
    · have h2 : ¬ key = p.key := fun e => h e.symm
      simp only [PropertyStore.setEntry, h, if_false, List.map_cons, ih, List.mem_cons, h2,
        false_or]
      split <;> simp

theorem keys_addOrUpdateProperty (e : Entity) (key : PropertyKey) (value : PropertyValue) :
    (e.addOrUpdateProperty key value).m_properties.keys
      = if key ∈ e.m_properties.keys then e.m_properties.keys
        else e.m_properties.keys ++ [key] := by
  simp only [Entity.addOrUpdateProperty, PropertyStore.set, PropertyStore.keys]
  exact keys_setEntry _ _ _

theorem property_addOrUpdateProperty (e : Entity) (key : PropertyKey)
    (value defaultValue : PropertyValue) :
    (e.addOrUpdateProperty key value).property key defaultValue = value := by
  simp [Entity.property, Entity.addOrUpdateProperty, PropertyStore.get, PropertyStore.set,
    findEntry_setEntry_self]

theorem afterUpdates_append (calls : List (PropertyKey × PropertyValue))
    (c : PropertyKey × PropertyValue) :
    Entity.afterUpdates (calls ++ [c])
      = (Entity.afterUpdates calls).addOrUpdateProperty c.1 c.2 := by
  simp [Entity.afterUpdates, List.foldl_append]

/-- Keys stay unique under `addOrUpdateProperty`, and every key written is present. -/
theorem afterUpdates_keys (calls : List (PropertyKey × PropertyValue)) :
    (Entity.afterUpdates calls).m_properties.keys.Nodup ∧
    ∀ c ∈ calls, c.1 ∈ (Entity.afterUpdates calls).m_properties.keys := by
  induction calls using List.reverseRecOn with
  | nil =>
    exact ⟨by simp [Entity.afterUpdates, Entity.newEntity, PropertyStore.empty,
      PropertyStore.keys], by simp⟩
  | append_singleton calls c ih =>
    obtain ⟨hnd, hmem⟩ := ih
    rw [afterUpdates_append, keys_addOrUpdateProperty]
    by_cases h : c.1 ∈ (Entity.afterUpdates calls).m_properties.keys
    · simp only [h, if_true]
      refine ⟨hnd, ?_⟩
      intro x hx
      rcases List.mem_append.mp hx with hx | hx
      · exact hmem x hx
      · simp only [List.mem_singleton] at hx
        rw [hx]; exact h
    · simp only [h, if_false]
      refine ⟨?_, ?_⟩
      · rw [List.nodup_append]
        refine ⟨hnd, by simp, ?_⟩
        intro a ha hb
        simp only [List.mem_singleton] at hb
        rw [hb] at ha
        exact h ha
      · intro x hx
        rcases List.mem_append.mp hx with hx | hx
        · exact List.mem_append_left _ (hmem x hx)
        · simp only [List.mem_singleton] at hx
          rw [hx]; simp

/-- C4: looking up a key that is not among the entity's properties returns the
default passed in, and `DefaultPropertyValue` when the default argument is
omitted; on an entity without properties every lookup returns the default; and
`hasProperty` is false exactly for the keys that are not among the properties. -/
theorem property_of_missing_key (e : Entity) (key : PropertyKey)
    (defaultValue DefaultPropertyValue : PropertyValue)
    (hmissing : key ∉ e.properties.map EntityProperty.key) :
    e.property key defaultValue = defaultValue ∧
    Entity.propertyOrDefault DefaultPropertyValue e key = DefaultPropertyValue ∧
    (∀ k d, Entity.newEntity.property k d = d) ∧
    e.hasProperty key = false ∧
    (∀ k, e.hasProperty k = false ↔ k ∉ e.properties.map EntityProperty.key) := by
  have hnone : PropertyStore.findEntry e.m_properties.entries key = none :=
    (findEntry_none_iff _ _).mpr hmissing
  have hiff : ∀ k, e.hasProperty k = false ↔ k ∉ e.properties.map EntityProperty.key := by
    intro k
    rw [← Bool.not_eq_true]
    exact not_congr (contains_iff e.m_properties k)
  refine ⟨?_, ?_, ?_, (hiff key).mpr hmissing, hiff⟩
  · simp [Entity.property, PropertyStore.get, hnone]
  · simp [Entity.propertyOrDefault, Entity.property, PropertyStore.get, hnone]
  · intro k d
    rfl

/-- C4, instantiated: an entity holding only `origin`, looked up under `angle`. -/
theorem property_of_missing_key_witness :
    "angle" ∉ (Entity.afterUpdates [("origin", "0 0 0")]).properties.map EntityProperty.key ∧
    (Entity.afterUpdates [("origin", "0 0 0")]).property "angle" "none" = "none" :=
  ⟨by decide,
    (property_of_missing_key (Entity.afterUpdates [("origin", "0 0 0")]) "angle" "none" ""
      (by decide)).1⟩

/-- C5: after `addOrUpdateProperty(k, v)` the lookup `property(k, d)` returns `v`
whatever `d` is; a second `addOrUpdateProperty(k, v2)` makes it return `v2`; and
after any sequence of `addOrUpdateProperty` calls on a new entity the keys of
`properties()` are pairwise distinct, every key written occurring exactly once.
Keys that differ only in case are different keys. -/
theorem addOrUpdateProperty_roundtrip (e : Entity) (k : PropertyKey)
    (v v2 d : PropertyValue) (calls : List (PropertyKey × PropertyValue)) :
    (e.addOrUpdateProperty k v).property k d = v ∧
    ((e.addOrUpdateProperty k v).addOrUpdateProperty k v2).property k d = v2 ∧
    ((Entity.afterUpdates calls).properties.map EntityProperty.key).Nodup ∧
    (∀ c ∈ calls,
      ((Entity.afterUpdates calls).properties.map EntityProperty.key).count c.1 = 1) ∧
    (((Entity.afterUpdates calls).addOrUpdateProperty k v).properties.map
      EntityProperty.key).count k = 1 ∧
    ((Entity.newEntity.addOrUpdateProperty "Key" "a").addOrUpdateProperty "key" "b").properties
      = [⟨"Key", "a"⟩, ⟨"key", "b"⟩] := by
  refine ⟨property_addOrUpdateProperty e k v d, property_addOrUpdateProperty _ k v2 d,
    (afterUpdates_keys calls).1, ?_, ?_, by decide⟩
  · intro c hc
    exact List.count_eq_one_of_mem (afterUpdates_keys calls).1 ((afterUpdates_keys calls).2 c hc)
  · have h := afterUpdates_keys (calls ++ [(k, v)])
    rw [afterUpdates_append] at h
    exact List.count_eq_one_of_mem h.1 (h.2 (k, v) (by simp))

theorem nextSelected_length {σ : Type} (filter : σ → BrushPtr → Bool) (s : σ)
    (brushes : List BrushPtr) (brush : BrushPtr) (rest : List BrushPtr)
    (h : Entity.nextSelected filter s brushes = some (brush, rest)) : rest.length < brushes.length := by
  induction brushes with
  | nil => simp [Entity.nextSelected] at h
  | cons b bs ih =>
    by_cases hb : filter s b = true
    · simp only [Entity.nextSelected, hb, if_true, Option.some.injEq, Prod.mk.injEq] at h
      rw [← h.2]
      simp
    · simp only [Entity.nextSelected, hb, Bool.false_eq_true, if_false] at h
      have := ih h
      simp only [List.length_cons]
      omega

/-- One step of the loop, told through the lazy sequence: the loop ends in the
current state when no brush is left that passes, and otherwise goes on after the
first that does. -/
theorem eachBrushLoop_next {σ : Type} (op : σ → BrushPtr → σ) (filter : σ → BrushPtr → Bool)
    (s : σ) (brushes : List BrushPtr) :
    Entity.eachBrushLoop op filter brushes s =
      match Entity.nextSelected filter s brushes with
      | none => s
      | some (brush, rest) => Entity.eachBrushLoop op filter rest (op s brush) := by
  induction brushes with
  | nil => rfl
  | cons b bs ih =>
    by_cases hb : filter s b = true
    · simp [Entity.eachBrushLoop, Entity.nextSelected, hb]
    · simp only [Entity.eachBrushLoop, Entity.nextSelected, hb, Bool.false_eq_true, if_false]
      exact ih

/-- With fuel for every brush the lazy iteration is the loop. -/
theorem forEachSelected_eq_loop {σ : Type} (op : σ → BrushPtr → σ)
    (filter : σ → BrushPtr → Bool) :
    ∀ (fuel : Nat) (brushes : List BrushPtr) (s : σ), brushes.length ≤ fuel →
      Entity.forEachSelected op filter fuel brushes s = Entity.eachBrushLoop op filter brushes s := by
  intro fuel
  induction fuel with
  | zero =>
    intro brushes s h
    have hnil : brushes = [] := List.length_eq_zero.mp (Nat.le_zero.mp h)
    subst hnil
    rfl
  | succ fuel ih =>
    intro brushes s h
    rw [eachBrushLoop_next]
    simp only [Entity.forEachSelected]
    cases hn : Entity.nextSelected filter s brushes with
    | none => rfl
    | some p =>
      obtain ⟨brush, rest⟩ := p
      have hlen := nextSelected_length filter s brushes brush rest hn
      exact ih rest (op s brush) (by omega)

theorem eachBrushLoop_append {σ : Type} (op : σ → BrushPtr → σ) (filter : σ → BrushPtr → Bool)
    (front back : List BrushPtr) :
    ∀ s : σ, Entity.eachBrushLoop op filter (front ++ back) s
      = Entity.eachBrushLoop op filter back (Entity.eachBrushLoop op filter front s) := by
  induction front with
  | nil => intro s; rfl
  | cons b bs ih =>
    intro s
    by_cases hb : filter s b = true
    · simp [Entity.eachBrushLoop, hb, ih]
    · simp [Entity.eachBrushLoop, hb, ih]

/-- Recording the brushes `op` is invoked on changes nothing else; the record is
a sub-sequence of the brushes, and the loop is `op` folded over the record. -/
theorem eachBrushLoop_invoked {σ : Type} (op : σ → BrushPtr → σ) (filter : σ → BrushPtr → Bool)
    (brushes : List BrushPtr) :
    ∀ (s : σ) (invoked : List BrushPtr),
      ∃ more : List BrushPtr,
        Entity.eachBrushLoop (fun (p : σ × List BrushPtr) brush => (op p.1 brush, p.2 ++ [brush]))
            (fun p brush => filter p.1 brush) brushes (s, invoked)
          = (Entity.eachBrushLoop op filter brushes s, invoked ++ more) ∧
        more.Sublist brushes ∧
        Entity.eachBrushLoop op filter brushes s = more.foldl op s := by
  induction brushes with
  | nil => intro s invoked; exact ⟨[], by simp [Entity.eachBrushLoop], List.Sublist.refl _, rfl⟩
  | cons b bs ih =>
    intro s invoked
    by_cases hb : filter s b = true
    · obtain ⟨more, h1, h2, h3⟩ := ih (op s b) (invoked ++ [b])
      refine ⟨b :: more, ?_, h2.cons₂ b, ?_⟩
      · simp only [Entity.eachBrushLoop, hb, if_true, h1]
        simp
      · simp only [Entity.eachBrushLoop, hb, if_true, h3, List.foldl_cons]
    · obtain ⟨more, h1, h2, h3⟩ := ih s invoked
      refine ⟨more, ?_, h2.cons b, ?_⟩
      · simp only [Entity.eachBrushLoop, hb, Bool.false_eq_true, if_false, h1]
      · simp only [Entity.eachBrushLoop, hb, Bool.false_eq_true, if_false, h3]

theorem eachBrushLoop_eq_foldl {σ : Type} (op : σ → BrushPtr → σ) (p : BrushPtr → Bool)
    (brushes : List BrushPtr) :
    ∀ s : σ, Entity.eachBrushLoop op (fun _ brush => p brush) brushes s
      = (brushes.filter p).foldl op s := by
  induction brushes with
  | nil => intro s; rfl
  | cons b rest ih =>
    intro s
    by_cases hb : p b = true
    · simp [Entity.eachBrushLoop, hb, ih]
    · simp [Entity.eachBrushLoop, hb, ih]

/-- C8: `eachBrush(op, filter)` is filter-then-apply over the owned brushes, for
every operator and every filter, also a filter that reads what the operator
changes. It equals `op` iterated over the lazy sequence of `brushes()` selected
by the predicate. Each brush in turn has `filter` evaluated in the state the
brushes before it left, and `op` applied exactly when it returns true. The
brushes `op` is invoked on form a sub-sequence of `brushes()`, in list order, and
the result is `op` folded over them. For a predicate on the brush alone that
sub-sequence is `brushes().filter(p)`. The overload taking a const operator and
the one taking a non-const operator behave alike and invoke `op` on the same
brushes. -/
theorem eachBrush_filter_then_apply {σ : Type} (e : Entity) (op : σ → BrushPtr → σ)
    (filter : σ → BrushPtr → Bool) (s : σ) :
    e.eachBrush op filter s = e.eachBrushSpec op filter s ∧
    e.eachBrushConst op filter s = e.eachBrushSpec op filter s ∧
    (∀ (front back : List BrushPtr) (brush : BrushPtr), e.brushes = front ++ brush :: back →
      e.eachBrush op filter s
        = Entity.eachBrushLoop op filter back
            (if filter (Entity.eachBrushLoop op filter front s) brush
              then op (Entity.eachBrushLoop op filter front s) brush
              else Entity.eachBrushLoop op filter front s)) ∧
    (∃ invoked : List BrushPtr,
      e.eachBrush (fun (p : σ × List BrushPtr) brush => (op p.1 brush, p.2 ++ [brush]))
          (fun p brush => filter p.1 brush) (s, [])
        = (e.eachBrush op filter s, invoked) ∧
      e.eachBrushConst (fun (p : σ × List BrushPtr) brush => (op p.1 brush, p.2 ++ [brush]))
          (fun p brush => filter p.1 brush) (s, [])
        = (e.eachBrushConst op filter s, invoked) ∧
      invoked.Sublist e.brushes ∧
      e.eachBrush op filter s = invoked.foldl op s) ∧
    (∀ p : BrushPtr → Bool,
      e.eachBrush op (fun _ brush => p brush) s = (e.brushes.filter p).foldl op s ∧
      e.eachBrush (fun (q : σ × List BrushPtr) brush => (op q.1 brush, q.2 ++ [brush]))
          (fun _ brush => p brush) (s, [])
        = ((e.brushes.filter p).foldl op s, e.brushes.filter p)) ∧
    e.eachBrushConst op filter s = e.eachBrush op filter s := by
  have hspec : e.eachBrush op filter s = e.eachBrushSpec op filter s :=
    (forEachSelected_eq_loop op filter _ _ s (Nat.le_refl _)).symm
  refine ⟨hspec, hspec, ?_, ?_, ?_, rfl⟩
  · intro front back brush hsplit
    simp only [Entity.brushes] at hsplit
    simp only [Entity.eachBrush, hsplit, eachBrushLoop_append, Entity.eachBrushLoop]
    split <;> rfl
  · obtain ⟨more, h1, h2, h3⟩ := eachBrushLoop_invoked op filter e.m_brushes s []
    refine ⟨more, ?_, ?_, h2, h3⟩
    · simpa [Entity.eachBrush] using h1
    · simpa [Entity.eachBrushConst] using h1
  · intro p
    refine ⟨eachBrushLoop_eq_foldl op p _ s, ?_⟩
    obtain ⟨more, h1, _, _⟩ :=
      eachBrushLoop_invoked op (fun _ brush => p brush) e.m_brushes s []
    have htrace : ∀ (l acc : List BrushPtr) (t : σ),
        Entity.eachBrushLoop
            (fun (q : σ × List BrushPtr) brush => (op q.1 brush, q.2 ++ [brush]))
            (fun _ brush => p brush) l (t, acc)
          = ((l.filter p).foldl op t, acc ++ l.filter p) := by
      intro l
      induction l with
      | nil => intro acc t; simp [Entity.eachBrushLoop]
      | cons b bs ih =>
        intro acc t
        by_cases hb : p b = true
        · simp [Entity.eachBrushLoop, hb, ih]
        · simp [Entity.eachBrushLoop, hb, ih]
    simpa [Entity.eachBrush, Entity.brushes] using htrace e.m_brushes [] s

end Model

namespace Model

namespace SceneGraph

theorem brushesOf_setBrushes (g : SceneGraph) (a x : Nat) (l : List BrushPtr) :
    (g.setBrushes a l).brushesOf x = if x = a then l else g.brushesOf x := by
  by_cases h : x = a
  · simp [setBrushes, brushesOf, Entity.brushes, h]
  · simp [setBrushes, brushesOf, Entity.brushes, h]

theorem brushesOf_setOwner (g : SceneGraph) (b : BrushPtr) (o : Option Nat) (x : Nat) :
    (g.setOwner b o).brushesOf x = g.brushesOf x := rfl

theorem owner_setOwner (g : SceneGraph) (b c : BrushPtr) (o : Option Nat) :
    (g.setOwner b o).owner c = if c = b then o else g.owner c := rfl

theorem owner_setBrushes (g : SceneGraph) (a : Nat) (l : List BrushPtr) :
    (g.setBrushes a l).owner = g.owner := rfl

theorem brushesOf_detach (g : SceneGraph) (a x : Nat) (b : BrushPtr) :
    (g.detach a b).brushesOf x = if x = a then (g.brushesOf a).erase b else g.brushesOf x := by
  simp [detach, brushesOf_setBrushes]

theorem consistent_initial : Consistent initial := by
  refine ⟨fun a => ?_, fun a b => ?_⟩
  · simp [initial, brushesOf, Entity.brushes, Entity.newEntity]
  · simp [initial, brushesOf, Entity.brushes, Entity.newEntity]

/-- Detaching a brush from its owner leaves it in no list and leaves every
other brush where it was. -/
theorem detach_owner_spec (g : SceneGraph) (p : Nat) (b : BrushPtr) (h : Consistent g)
    (hp : g.owner b = some p) :
    (∀ x, ((g.detach p b).brushesOf x).Nodup) ∧
    (∀ x, b ∉ (g.detach p b).brushesOf x) ∧
    (∀ x c, c ≠ b → (c ∈ (g.detach p b).brushesOf x ↔ g.owner c = some x)) := by
  obtain ⟨hnd, hown⟩ := h
  refine ⟨fun x => ?_, fun x => ?_, fun x c hc => ?_⟩
  · rw [brushesOf_detach]
    split
    · exact (hnd p).erase b
    · exact hnd x
  · rw [brushesOf_detach]
    split
    · exact fun hm => (List.Nodup.mem_erase_iff (hnd p)).mp hm |>.1 rfl
    · rename_i hx
      intro hm
      have := (hown x b).mp hm
      rw [hp] at this
      exact hx (Option.some.inj this).symm
  · rw [brushesOf_detach]
    split
    · rename_i hx
      subst hx
      rw [List.mem_erase_of_ne hc]
      exact hown x c
    · exact hown x c

/-- The state after a prior owner, if any, has released the brush. -/
theorem released_spec (g : SceneGraph) (b : BrushPtr) (h : Consistent g) :
    ∃ r : SceneGraph,
      r = (match g.owner b with
        | some prior => g.detach prior b
        | none => g) ∧
      r.owner = g.owner ∧
      (∀ x, (r.brushesOf x).Nodup) ∧
      (∀ x, b ∉ r.brushesOf x) ∧
      (∀ x c, c ≠ b → (c ∈ r.brushesOf x ↔ g.owner c = some x)) := by
  cases hp : g.owner b with
  | none =>
    refine ⟨g, rfl, rfl, h.1, fun x hm => ?_, fun x c _ => h.2 x c⟩
    have := (h.2 x b).mp hm
    rw [hp] at this
    exact absurd this (by simp)
  | some p =>
    obtain ⟨h1, h2, h3⟩ := detach_owner_spec g p b h hp
    exact ⟨g.detach p b, rfl, rfl, h1, h2, h3⟩

/-- After `addBrush(a, b)` the brush is in the list of `a`, once, and in no
other list; ownership stays consistent. -/
theorem addBrush_spec (g : SceneGraph) (a : Nat) (b : BrushPtr) (h : Consistent g) :
    Consistent (g.addBrush a b) ∧
    ((g.addBrush a b).brushesOf a).count b = 1 ∧
    (∀ x, x ≠ a → b ∉ (g.addBrush a b).brushesOf x) := by
  obtain ⟨r, hr, hro, hnd, hnot, hiff⟩ := released_spec g b h
  have hlist : ∀ x, (g.addBrush a b).brushesOf x
      = if x = a then r.brushesOf a ++ [b] else r.brushesOf x := by
    intro x
    simp only [addBrush, brushesOf_setOwner, brushesOf_setBrushes, ← hr]
  have howner : ∀ c, (g.addBrush a b).owner c = if c = b then some a else g.owner c := by
    intro c
    simp only [addBrush, owner_setOwner, owner_setBrushes, ← hr, hro]
  have hnda : (r.brushesOf a ++ [b]).Nodup := by
    rw [List.nodup_append]
    refine ⟨hnd a, by simp, ?_⟩
    intro x hx hb
    simp only [List.mem_singleton] at hb
    rw [hb] at hx
    exact hnot a hx
  refine ⟨⟨fun x => ?_, fun x c => ?_⟩, ?_, fun x hx => ?_⟩
  · rw [hlist]
    split
    · exact hnda
    · exact hnd x
  · rw [hlist, howner]
    by_cases hc : c = b
    · subst hc
      by_cases hx : x = a
      · simp [hx]
      · have hne : ¬ a = x := fun e => hx e.symm
        simp [hx, hne, hnot x]
    · by_cases hx : x = a
      · subst hx
        simp only [if_true, hc, if_false, List.mem_append, List.mem_singleton, or_false]
        exact hiff x c hc
      · simp only [hx, if_false, hc]
        exact hiff x c hc
  · rw [hlist]
    simp only [if_true]
    exact List.count_eq_one_of_mem hnda (by simp)
  · rw [hlist]
    simp only [hx, if_false]
    exact hnot x

theorem removeBrush_consistent (g : SceneGraph) (a : Nat) (b : BrushPtr) (h : Consistent g) :
    Consistent (g.removeBrush a b).2 := by
  by_cases hp : g.owner b = some a
  · obtain ⟨h1, h2, h3⟩ := detach_owner_spec g a b h hp
    simp only [removeBrush, hp, if_true]
    refine ⟨fun x => h1 x, fun x c => ?_⟩
    rw [brushesOf_setOwner, owner_setOwner]
    by_cases hc : c = b
    · subst hc
      simp [h2 x]
    · simp only [hc, if_false]
      exact h3 x c hc
  · simp only [removeBrush, hp, if_false]
    exact h

theorem reached_append (calls : List BrushCall) (c : BrushCall) :
    reached (calls ++ [c]) = (reached calls).step c := by
  simp [reached, List.foldl_append]

/-- Ownership is consistent in every state reached by `addBrush` and
`removeBrush` calls. -/
theorem reached_consistent (calls : List BrushCall) : Consistent (reached calls) := by
  induction calls using List.reverseRecOn with
  | nil => exact consistent_initial
  | append_singleton calls c ih =>
    rw [reached_append]
    cases c with
    | addBrush a b => exact (addBrush_spec _ a b ih).1
    | removeBrush a b => exact removeBrush_consistent _ a b ih

end SceneGraph

/-- C7: in a state reached by `addBrush` / `removeBrush` calls, for a brush `b`
owned by entity `B`, after `addBrush(A, b)` the brush is in the list of `A`
exactly once and in the list of no other entity, so it is gone from `B` when `B`
is another entity than `A`, and its back-reference has moved from `B` to `A`;
and in every reachable state no brush is in the
lists of two different entities, nor twice in one list. -/
theorem addBrush_single_owner (calls : List SceneGraph.BrushCall) (A B : Nat) (b : BrushPtr)
    (howned : b ∈ (SceneGraph.reached calls).brushesOf B) :
    (SceneGraph.reached calls).owner b = some B ∧
    ((SceneGraph.reached calls).addBrush A b).owner b = some A ∧
    (((SceneGraph.reached calls).addBrush A b).brushesOf A).count b = 1 ∧
    (B ≠ A → b ∉ ((SceneGraph.reached calls).addBrush A b).brushesOf B) ∧
    (∀ C, C ≠ A → b ∉ ((SceneGraph.reached calls).addBrush A b).brushesOf C) ∧
    (∀ (history : List SceneGraph.BrushCall) (x y : Nat) (c : BrushPtr),
      c ∈ (SceneGraph.reached history).brushesOf x →
      c ∈ (SceneGraph.reached history).brushesOf y → x = y) ∧
    (∀ (history : List SceneGraph.BrushCall) (x : Nat),
      ((SceneGraph.reached history).brushesOf x).Nodup) := by
  obtain ⟨hcons, hcount, hnot⟩ :=
    SceneGraph.addBrush_spec (SceneGraph.reached calls) A b (SceneGraph.reached_consistent calls)
  refine ⟨((SceneGraph.reached_consistent calls).2 B b).mp howned,
    (hcons.2 A b).mp (List.count_pos_iff.mp (by rw [hcount]; exact Nat.one_pos)),
    hcount, fun hne => hnot B hne, hnot, ?_, ?_⟩
  · intro history x y c hx hy
    have h := SceneGraph.reached_consistent history
    have h1 := (h.2 x c).mp hx
    have h2 := (h.2 y c).mp hy
    rw [h1] at h2
    exact Option.some.inj h2
  · intro history x
    exact (SceneGraph.reached_consistent history).1 x

/-- C7, instantiated: brush 7 is given to entity 1 and then added to entity 0. -/
theorem addBrush_single_owner_witness :
    7 ∈ (SceneGraph.reached [SceneGraph.BrushCall.addBrush 1 7]).brushesOf 1 ∧
    (((SceneGraph.reached [SceneGraph.BrushCall.addBrush 1 7]).addBrush 0 7).brushesOf 0).count 7
      = 1 ∧
    7 ∉ ((SceneGraph.reached [SceneGraph.BrushCall.addBrush 1 7]).addBrush 0 7).brushesOf 1 :=
  ⟨by decide,
    (addBrush_single_owner [SceneGraph.BrushCall.addBrush 1 7] 0 1 7 (by decide)).2.2.1,
    (addBrush_single_owner [SceneGraph.BrushCall.addBrush 1 7] 0 1 7 (by decide)).2.2.2.1
      (by decide)⟩

end Model

namespace View

theorem collectAttributes_eq_map (attributeName : Int → String) (rows : List Int) :
    collectAttributes attributeName rows = rows.map attributeName := by
  unfold collectAttributes
  suffices h : ∀ (acc : List String),
      rows.foldl (fun names row => names ++ [attributeName row]) acc
        = acc ++ rows.map attributeName by
    simpa using h []
  induction rows with
  | nil => intro acc; simp
  | cons r rs ih => intro acc; simp [ih]

/-- The loop only ever appends `removeAttribute` events, and its flag records
whether one of the appended events reported failure. -/
theorem removeLoop_spec {D : Type} (ops : DocumentOps D) (attributes : List String) :
    ∀ (success : Bool) (run : Run D),
      ∃ calls : List (String × Bool),
        (removeLoop ops attributes success run).2.events
            = run.events ++ calls.map (fun c => TxEvent.removeAttribute c.1 c.2) ∧
        ((removeLoop ops attributes success run).1 = true ↔
            (success = true ∧ ∀ c ∈ calls, c.2 = true)) ∧
        (success = false → calls = []) := by
  induction attributes with
  | nil =>
    intro success run
    exact ⟨[], by simp [removeLoop], by simp [removeLoop], fun _ => rfl⟩
  | cons a rest ih =>
    intro success run
    cases success with
    | false =>
      obtain ⟨calls, h1, h2, h3⟩ := ih false run
      refine ⟨calls, ?_, ?_, h3⟩
      · simpa [removeLoop] using h1
      · simpa [removeLoop] using h2
    | true =>
      obtain ⟨calls, h1, h2, h3⟩ :=
        ih (ops.removeAttribute run.document a).1
          ⟨(ops.removeAttribute run.document a).2,
            run.events ++ [TxEvent.removeAttribute a (ops.removeAttribute run.document a).1]⟩
      refine ⟨(a, (ops.removeAttribute run.document a).1) :: calls, ?_, ?_, by simp⟩
      · simp only [removeLoop, if_true]
        rw [h1]
        simp
      · simp only [removeLoop, if_true]
        rw [h2]
        constructor
        · rintro ⟨hr, hc⟩
          refine ⟨trivial, ?_⟩
          intro c hc'
          rcases List.mem_cons.mp hc' with rfl | hmem
          · exact hr
          · exact hc c hmem
        · rintro ⟨_, hc⟩
          exact ⟨hc _ (List.mem_cons_self _ _), fun c hmem => hc c (List.mem_cons_of_mem _ hmem)⟩

namespace MapDocument

end MapDocument

namespace MapDocument

end MapDocument

/-- An instance with a transaction already open: two selected nodes, the second
without `angle`. The removal of `origin` succeeds, the removal of `angle` changes
the first node and reports failure, and the rollback restores both nodes and
leaves the outer transaction and its log as they were. -/
theorem removeSelectedAttributes_nested_example :
    (removeSelectedAttributes MapDocument.ops
        (fun row => if row = 0 then "origin" else "angle") [0, 1]
        ⟨[⟨true, ⟨[⟨"origin", "0 0 0"⟩, ⟨"angle", "90"⟩]⟩⟩, ⟨true, ⟨[⟨"origin", "1 1 1"⟩]⟩⟩],
          [⟨"Move", [⟨1, ⟨[⟨"origin", "5 5 5"⟩]⟩⟩], false⟩]⟩).document
      = ⟨[⟨true, ⟨[⟨"origin", "0 0 0"⟩, ⟨"angle", "90"⟩]⟩⟩, ⟨true, ⟨[⟨"origin", "1 1 1"⟩]⟩⟩],
          [⟨"Move", [⟨1, ⟨[⟨"origin", "5 5 5"⟩]⟩⟩], false⟩]⟩ ∧
    (removeSelectedAttributes MapDocument.ops
        (fun row => if row = 0 then "origin" else "angle") [0, 1]
        ⟨[⟨true, ⟨[⟨"origin", "0 0 0"⟩, ⟨"angle", "90"⟩]⟩⟩, ⟨true, ⟨[⟨"origin", "1 1 1"⟩]⟩⟩],
          [⟨"Move", [⟨1, ⟨[⟨"origin", "5 5 5"⟩]⟩⟩], false⟩]⟩).events
      = [TxEvent.begin "Remove Attributes", TxEvent.removeAttribute "origin" true,
          TxEvent.removeAttribute "angle" false, TxEvent.rollback, TxEvent.scopeExit] ∧
    (removeSelectedAttributes MapDocument.ops (fun _ => "origin") [0]
        ⟨[⟨true, ⟨[⟨"origin", "0 0 0"⟩, ⟨"angle", "90"⟩]⟩⟩, ⟨true, ⟨[⟨"origin", "1 1 1"⟩]⟩⟩],
          [⟨"Move", [⟨1, ⟨[⟨"origin", "5 5 5"⟩]⟩⟩], false⟩]⟩).document
      = ⟨[⟨true, ⟨[⟨"angle", "90"⟩]⟩⟩, ⟨true, ⟨[]⟩⟩],
          [⟨"Move", [⟨1, ⟨[⟨"origin", "1 1 1"⟩]⟩⟩, ⟨0, ⟨[⟨"origin", "0 0 0"⟩, ⟨"angle", "90"⟩]⟩⟩,
            ⟨1, ⟨[⟨"origin", "5 5 5"⟩]⟩⟩], false⟩]⟩ := by
  decide

/-- The calls of a whole run: the transaction is opened, the removals are made
up to and including the first failing one, `rollback` follows exactly when one
of them failed, and the transaction object goes out of scope last. -/
theorem removeAttributes_events {D : Type} (ops : DocumentOps D)
    (attributes : List String) (document : D) :
    ∃ calls : List (String × Bool),
      (removeAttributes ops attributes document).events
        = [TxEvent.begin (safePlural attributes.length "Remove Attribute" "Remove Attributes")]
          ++ calls.map (fun c => TxEvent.removeAttribute c.1 c.2)
          ++ (if ∀ c ∈ calls, c.2 = true then [] else [TxEvent.rollback])
          ++ [TxEvent.scopeExit] := by
  obtain ⟨calls, h1, h2, _⟩ := removeLoop_spec ops attributes true
    ⟨ops.beginTransaction document
        (safePlural attributes.length "Remove Attribute" "Remove Attributes"),
      [TxEvent.begin (safePlural attributes.length "Remove Attribute" "Remove Attributes")]⟩
  refine ⟨calls, ?_⟩
  simp only [true_and] at h2
  by_cases hall : ∀ c ∈ calls, c.2 = true
  · have hs := h2.mpr hall
    simp only [removeAttributes, hs, Bool.not_true, if_pos hall]
    simp [h1]
  · have hs : (removeLoop ops attributes true
        ⟨ops.beginTransaction document
            (safePlural attributes.length "Remove Attribute" "Remove Attributes"),
          [TxEvent.begin (safePlural attributes.length "Remove Attribute" "Remove Attributes")]⟩).1
          = false := by
      cases hb : (removeLoop ops attributes true
        ⟨ops.beginTransaction document
            (safePlural attributes.length "Remove Attribute" "Remove Attributes"),
          [TxEvent.begin (safePlural attributes.length "Remove Attribute" "Remove Attributes")]⟩).1
      · rfl
      · exact absurd (h2.mp hb) hall
    simp only [removeAttributes, hs, Bool.not_false, if_neg hall]
    simp [h1]

theorem removeLoop_false {D : Type} (ops : DocumentOps D) (attributes : List String)
    (run : Run D) : removeLoop ops attributes false run = (false, run) := by
  induction attributes with
  | nil => rfl
  | cons a rest ih => simpa [removeLoop] using ih

/-- The loop makes exactly the removals of `removalsMade`: it records them in
order, leaves the document they leave, and its flag tells whether all of them
reported success. -/
theorem removeLoop_true {D : Type} (ops : DocumentOps D) (attributes : List String) :
    ∀ run : Run D, removeLoop ops attributes true run
      = ((removalsMade ops attributes run.document).all (fun c => c.2),
          ⟨documentAfterRemovals ops attributes run.document,
            run.events ++ (removalsMade ops attributes run.document).map
              (fun c => TxEvent.removeAttribute c.1 c.2)⟩) := by
  induction attributes with
  | nil => intro run; simp [removeLoop, removalsMade, documentAfterRemovals]
  | cons a rest ih =>
    intro run
    cases hr : (ops.removeAttribute run.document a).1 with
    | false =>
      simp only [removeLoop, if_true, hr, removeLoop_false, removalsMade,
        documentAfterRemovals, Bool.false_eq_true, if_false, List.all_cons, List.all_nil,
        Bool.and_true, List.map_cons, List.map_nil]
    | true =>
      simp only [removeLoop, if_true, hr, ih, removalsMade, documentAfterRemovals,
        List.all_cons, Bool.true_and, List.map_cons, List.append_assoc, List.singleton_append]

theorem removalsMade_initial_segment {D : Type} (ops : DocumentOps D) (attributes : List String) :
    ∀ d : D, ((removalsMade ops attributes d).map Prod.fst) <+: attributes ∧
      ((∀ c ∈ removalsMade ops attributes d, c.2 = true) →
        (removalsMade ops attributes d).map Prod.fst = attributes) := by
  induction attributes with
  | nil => intro d; simp [removalsMade]
  | cons a rest ih =>
    intro d
    cases hr : (ops.removeAttribute d a).1 with
    | false =>
      simp only [removalsMade, hr, Bool.false_eq_true, if_false, List.map_cons, List.map_nil,
        List.mem_singleton, forall_eq]
      refine ⟨⟨rest, by simp⟩, ?_⟩
      intro h
      exact absurd h (by decide)
    | true =>
      obtain ⟨hp, hall⟩ := ih (ops.removeAttribute d a).2
      simp only [removalsMade, hr, if_true, List.map_cons, List.mem_cons]
      refine ⟨?_, ?_⟩
      · obtain ⟨t, ht⟩ := hp
        exact ⟨t, by simp [ht]⟩
      · intro h
        rw [hall (fun c hc => h c (Or.inr hc))]

/-- On the oracle document a removal made reports failure exactly when one of
the prescribed outcomes of the removals of the selected attributes is a failure. -/
theorem removalsMade_oracle (attributes : List String) :
    ∀ outcomes : List Bool,
      (∃ c ∈ removalsMade oracleOps attributes outcomes, c.2 = false) ↔
        false ∈ outcomes.take attributes.length := by
  induction attributes with
  | nil => intro outcomes; simp [removalsMade]
  | cons a rest ih =>
    intro outcomes
    cases outcomes with
    | nil =>
      have h := ih []
      simp only [List.take_nil, List.not_mem_nil, iff_false] at h
      simp only [removalsMade, oracleOps, List.headD_nil, if_true, List.tail_nil,
        List.take_nil, List.not_mem_nil, iff_false]
      rintro ⟨c, hc, hf⟩
      rcases List.mem_cons.mp hc with rfl | hc
      · exact Bool.noConfusion hf
      · exact h ⟨c, hc, hf⟩
    | cons o os =>
      cases o with
      | false => simp [removalsMade, oracleOps]
      | true =>
        have h := ih os
        simp only [removalsMade, oracleOps, List.headD_cons, if_true, List.tail_cons,
          List.length_cons, List.take_succ_cons, List.mem_cons, Bool.false_eq_true, false_or]
        rw [← h]
        constructor
        · rintro ⟨c, hc | hc, hf⟩
          · rw [hc] at hf
            exact Bool.noConfusion hf
          · exact ⟨c, hc, hf⟩
        · rintro ⟨c, hc, hf⟩
          exact ⟨c, Or.inr hc, hf⟩

/-- C1: for every selection and every document, `removeSelectedAttributes` opens
the transaction, makes the removals of the selected attributes in order, each on
the document left by the previous one, up to and including the first that
reports failure, invokes `transaction.rollback()` exactly when one of those
removals reported failure, once and directly before the transaction object goes
out of scope, and leaves the document those calls leave. When every removal
succeeded, each selected attribute has had its removal made and `rollback` is
not invoked; nor is it for the empty selection. For every prescribed pattern of
outcomes, `rollback` is invoked exactly when an outcome of the removals of the
selected attributes is a failure. -/
theorem removeSelectedAttributes_rollback_iff_failure {D : Type} (ops : DocumentOps D)
    (attributeName : Int → String) (selectedRows : List Int) (document : D) :
    (removeSelectedAttributes ops attributeName selectedRows document).events
      = [TxEvent.begin (safePlural selectedRows.length "Remove Attribute" "Remove Attributes")]
        ++ (removalsMade ops (selectedRows.map attributeName)
              (ops.beginTransaction document
                (safePlural selectedRows.length "Remove Attribute" "Remove Attributes"))).map
            (fun c => TxEvent.removeAttribute c.1 c.2)
        ++ (if ∃ c ∈ removalsMade ops (selectedRows.map attributeName)
              (ops.beginTransaction document
                (safePlural selectedRows.length "Remove Attribute" "Remove Attributes")),
              c.2 = false
            then [TxEvent.rollback] else [])
        ++ [TxEvent.scopeExit] ∧
    (removeSelectedAttributes ops attributeName selectedRows document).document
      = ops.endTransaction
          (if ∃ c ∈ removalsMade ops (selectedRows.map attributeName)
              (ops.beginTransaction document
                (safePlural selectedRows.length "Remove Attribute" "Remove Attributes")),
              c.2 = false
            then ops.rollback (documentAfterRemovals ops (selectedRows.map attributeName)
              (ops.beginTransaction document
                (safePlural selectedRows.length "Remove Attribute" "Remove Attributes")))
            else documentAfterRemovals ops (selectedRows.map attributeName)
              (ops.beginTransaction document
                (safePlural selectedRows.length "Remove Attribute" "Remove Attributes"))) ∧
    (TxEvent.rollback ∈ (removeSelectedAttributes ops attributeName selectedRows document).events
      ↔ ∃ c ∈ removalsMade ops (selectedRows.map attributeName)
          (ops.beginTransaction document
            (safePlural selectedRows.length "Remove Attribute" "Remove Attributes")),
          c.2 = false) ∧
    (removeSelectedAttributes ops attributeName selectedRows document).events.count
        TxEvent.rollback ≤ 1 ∧
    ((removalsMade ops (selectedRows.map attributeName)
        (ops.beginTransaction document
          (safePlural selectedRows.length "Remove Attribute" "Remove Attributes"))).map Prod.fst
      <+: selectedRows.map attributeName) ∧
    ((∀ c ∈ removalsMade ops (selectedRows.map attributeName)
          (ops.beginTransaction document
            (safePlural selectedRows.length "Remove Attribute" "Remove Attributes")),
          c.2 = true) →
      (removeSelectedAttributes ops attributeName selectedRows document).events
        = [TxEvent.begin (safePlural selectedRows.length "Remove Attribute" "Remove Attributes")]
          ++ (selectedRows.map attributeName).map (fun a => TxEvent.removeAttribute a true)
          ++ [TxEvent.scopeExit]) ∧
    (removeSelectedAttributes ops attributeName [] document).events
      = [TxEvent.begin "Remove Attributes", TxEvent.scopeExit] ∧
    (∀ outcomes : List Bool,
      TxEvent.rollback
          ∈ (removeSelectedAttributes oracleOps attributeName selectedRows outcomes).events
        ↔ false ∈ outcomes.take selectedRows.length) := by
  have hshape : ∀ (E : Type) (o : DocumentOps E) (d : E),
      (removeSelectedAttributes o attributeName selectedRows d).events
        = [TxEvent.begin (safePlural selectedRows.length "Remove Attribute" "Remove Attributes")]
          ++ (removalsMade o (selectedRows.map attributeName)
                (o.beginTransaction d
                  (safePlural selectedRows.length "Remove Attribute" "Remove Attributes"))).map
              (fun c => TxEvent.removeAttribute c.1 c.2)
          ++ (if ∃ c ∈ removalsMade o (selectedRows.map attributeName)
                (o.beginTransaction d
                  (safePlural selectedRows.length "Remove Attribute" "Remove Attributes")),
                c.2 = false
              then [TxEvent.rollback] else [])
          ++ [TxEvent.scopeExit] ∧
      (removeSelectedAttributes o attributeName selectedRows d).document
        = o.endTransaction
            (if ∃ c ∈ removalsMade o (selectedRows.map attributeName)
                (o.beginTransaction d
                  (safePlural selectedRows.length "Remove Attribute" "Remove Attributes")),
                c.2 = false
              then o.rollback (documentAfterRemovals o (selectedRows.map attributeName)
                (o.beginTransaction d
                  (safePlural selectedRows.length "Remove Attribute" "Remove Attributes")))
              else documentAfterRemovals o (selectedRows.map attributeName)
                (o.beginTransaction d
                  (safePlural selectedRows.length "Remove Attribute" "Remove Attributes"))) := by
    intro E o d
    simp only [removeSelectedAttributes, removeAttributes, collectAttributes_eq_map,
      List.length_map, removeLoop_true]
    by_cases hfail : ∃ c ∈ removalsMade o (selectedRows.map attributeName)
        (o.beginTransaction d
          (safePlural selectedRows.length "Remove Attribute" "Remove Attributes")), c.2 = false
    · have hall : (removalsMade o (selectedRows.map attributeName)
          (o.beginTransaction d
            (safePlural selectedRows.length "Remove Attribute" "Remove Attributes"))).all
            (fun c => c.2) = false := by
        rw [← Bool.not_eq_true, List.all_eq_true]
        intro h
        obtain ⟨c, hc, hf⟩ := hfail
        rw [h c hc] at hf
        exact absurd hf (by decide)
      simp only [hall, Bool.not_false, if_true, if_pos hfail]
      simp
    · have hall : (removalsMade o (selectedRows.map attributeName)
          (o.beginTransaction d
            (safePlural selectedRows.length "Remove Attribute" "Remove Attributes"))).all
            (fun c => c.2) = true := by
        rw [List.all_eq_true]
        intro c hc
        cases hc2 : c.2 with
        | true => rfl
        | false => exact absurd ⟨c, hc, hc2⟩ hfail
      simp only [hall, Bool.not_true, Bool.false_eq_true, if_false, if_neg hfail]
      simp
  have hmem : ∀ (E : Type) (o : DocumentOps E) (d : E),
      (TxEvent.rollback ∈ (removeSelectedAttributes o attributeName selectedRows d).events
        ↔ ∃ c ∈ removalsMade o (selectedRows.map attributeName)
            (o.beginTransaction d
              (safePlural selectedRows.length "Remove Attribute" "Remove Attributes")),
            c.2 = false) := by
    intro E o d
    rw [(hshape E o d).1]
    split
    · rename_i hfail
      simp only [List.mem_append, List.mem_singleton, or_true, true_or, true_iff]
      exact hfail
    · rename_i hfail
      simp only [List.append_nil, List.mem_append, List.mem_singleton, reduceCtorEq,
        List.mem_map, false_or, or_false, hfail, iff_false, and_false, exists_false,
        not_false_eq_true]
  obtain ⟨hpre, hallnames⟩ := removalsMade_initial_segment ops (selectedRows.map attributeName)
    (ops.beginTransaction document
      (safePlural selectedRows.length "Remove Attribute" "Remove Attributes"))
  refine ⟨(hshape D ops document).1, (hshape D ops document).2, hmem D ops document, ?_,
    hpre, ?_, ?_, ?_⟩
  · rw [(hshape D ops document).1]
    have h0 : List.count TxEvent.rollback
        ((removalsMade ops (selectedRows.map attributeName)
            (ops.beginTransaction document
              (safePlural selectedRows.length "Remove Attribute" "Remove Attributes"))).map
          (fun c => TxEvent.removeAttribute c.1 c.2)) = 0 :=
      List.count_eq_zero.mpr (by simp)
    split <;> simp [h0, List.count_cons]
  · intro hgood
    have hno : ¬ ∃ c ∈ removalsMade ops (selectedRows.map attributeName)
        (ops.beginTransaction document
          (safePlural selectedRows.length "Remove Attribute" "Remove Attributes")),
        c.2 = false := by
      rintro ⟨c, hc, hf⟩
      rw [hgood c hc] at hf
      exact absurd hf (by decide)
    rw [(hshape D ops document).1, if_neg hno]
    have hmap : (removalsMade ops (selectedRows.map attributeName)
        (ops.beginTransaction document
          (safePlural selectedRows.length "Remove Attribute" "Remove Attributes"))).map
          (fun c => TxEvent.removeAttribute c.1 c.2)
        = ((removalsMade ops (selectedRows.map attributeName)
            (ops.beginTransaction document
              (safePlural selectedRows.length "Remove Attribute" "Remove Attributes"))).map
            Prod.fst).map (fun a => TxEvent.removeAttribute a true) := by
      rw [List.map_map]
      apply List.map_congr_left
      intro c hc
      simp [hgood c hc]
    rw [hmap, hallnames hgood]
    simp
  · simp [removeSelectedAttributes, collectAttributes, removeAttributes, removeLoop,
      safePlural]
  · intro outcomes
    rw [hmem (List Bool) oracleOps outcomes]
    have h := removalsMade_oracle (selectedRows.map attributeName)
      (oracleOps.beginTransaction outcomes
        (safePlural selectedRows.length "Remove Attribute" "Remove Attributes"))
    simp only [List.length_map] at h
    exact h

theorem erase_append_fresh (l : List Observer) (o : Observer)
    (h : ∀ x ∈ l, x.receiver ≠ o.receiver) : (l ++ [o]).erase o = l := by
  have hnot : o ∉ l := fun hm => h o hm rfl
  rw [List.erase_append_right _ hnot]
  simp

/-- C3: `bindObservers` appends the grid, with the matching callback, to each of
the five notifiers `documentWasNewed`, `documentWasLoaded`, `nodesDidChange`,
`selectionWillChange`, `selectionDidChange` and touches no other notifier;
`unbindObservers` on a live document removes exactly those five
(notifier, callback) pairs and does nothing on an expired one; so for a grid
that was not subscribed before, binding and then unbinding leaves every
notifier as it was. -/
theorem bindObservers_unbindObservers (self : Nat) (document : DocumentNotifiers)
    (hfresh : NotSubscribed self document) :
    bindObservers self document =
      { documentWasNewedNotifier := ⟨document.documentWasNewedNotifier.observers
          ++ [⟨self, GridCallback.documentWasNewed⟩]⟩,
        documentWasLoadedNotifier := ⟨document.documentWasLoadedNotifier.observers
          ++ [⟨self, GridCallback.documentWasLoaded⟩]⟩,
        nodesDidChangeNotifier := ⟨document.nodesDidChangeNotifier.observers
          ++ [⟨self, GridCallback.nodesDidChange⟩]⟩,
        selectionWillChangeNotifier := ⟨document.selectionWillChangeNotifier.observers
          ++ [⟨self, GridCallback.selectionWillChange⟩]⟩,
        selectionDidChangeNotifier := ⟨document.selectionDidChangeNotifier.observers
          ++ [⟨self, GridCallback.selectionDidChange⟩]⟩,
        otherNotifiers := document.otherNotifiers } ∧
    (∀ live : DocumentNotifiers, unbindObservers self (some live) = some
      { documentWasNewedNotifier := ⟨live.documentWasNewedNotifier.observers.erase
          ⟨self, GridCallback.documentWasNewed⟩⟩,
        documentWasLoadedNotifier := ⟨live.documentWasLoadedNotifier.observers.erase
          ⟨self, GridCallback.documentWasLoaded⟩⟩,
        nodesDidChangeNotifier := ⟨live.nodesDidChangeNotifier.observers.erase
          ⟨self, GridCallback.nodesDidChange⟩⟩,
        selectionWillChangeNotifier := ⟨live.selectionWillChangeNotifier.observers.erase
          ⟨self, GridCallback.selectionWillChange⟩⟩,
        selectionDidChangeNotifier := ⟨live.selectionDidChangeNotifier.observers.erase
          ⟨self, GridCallback.selectionDidChange⟩⟩,
        otherNotifiers := live.otherNotifiers }) ∧
    unbindObservers self none = none ∧
    unbindObservers self (some (bindObservers self document)) = some document := by
  obtain ⟨h1, h2, h3, h4, h5⟩ := hfresh
  refine ⟨rfl, fun _ => rfl, rfl, ?_⟩
  obtain ⟨⟨l1⟩, ⟨l2⟩, ⟨l3⟩, ⟨l4⟩, ⟨l5⟩, others⟩ := document
  simp only [unbindObservers, bindObservers, Notifier.addObserver, Notifier.removeObserver]
  simp only at h1 h2 h3 h4 h5
  rw [erase_append_fresh l1 _ h1, erase_append_fresh l2 _ h2, erase_append_fresh l3 _ h3,
    erase_append_fresh l4 _ h4, erase_append_fresh l5 _ h5]

/-- C3, instantiated: grid 7 on a document where another view, 3, already
observes two of the notifiers. -/
theorem bindObservers_unbindObservers_witness :
    NotSubscribed 7
      ⟨⟨[⟨3, GridCallback.documentWasNewed⟩]⟩, ⟨[]⟩, ⟨[⟨3, GridCallback.nodesDidChange⟩]⟩,
        ⟨[]⟩, ⟨[]⟩, [⟨[⟨7, GridCallback.nodesDidChange⟩]⟩]⟩ ∧
    unbindObservers 7 (some (bindObservers 7
      ⟨⟨[⟨3, GridCallback.documentWasNewed⟩]⟩, ⟨[]⟩, ⟨[⟨3, GridCallback.nodesDidChange⟩]⟩,
        ⟨[]⟩, ⟨[]⟩, [⟨[⟨7, GridCallback.nodesDidChange⟩]⟩]⟩))
      = some ⟨⟨[⟨3, GridCallback.documentWasNewed⟩]⟩, ⟨[]⟩,
          ⟨[⟨3, GridCallback.nodesDidChange⟩]⟩, ⟨[]⟩, ⟨[]⟩,
          [⟨[⟨7, GridCallback.nodesDidChange⟩]⟩]⟩ :=
  ⟨by simp [NotSubscribed],
    (bindObservers_unbindObservers 7
      ⟨⟨[⟨3, GridCallback.documentWasNewed⟩]⟩, ⟨[]⟩, ⟨[⟨3, GridCallback.nodesDidChange⟩]⟩,
        ⟨[]⟩, ⟨[]⟩, [⟨[⟨7, GridCallback.nodesDidChange⟩]⟩]⟩
      (by simp [NotSubscribed])).2.2.2⟩

/-- C9, failing run: row 0 can be removed and row 1 cannot. The user makes row 0
current, a document notification runs `updateControls` and enables the Delete
shortcut, the user makes row 1 current, which updates nothing. In the state
reached the shortcut is enabled although `canRemoveSelectedAttributes()` is
false, and activating it fails the assertion of `removeSelectedAttributes`. -/
theorem removeSelectedAttributes_assert_fails :
    ((EntityAttributeGrid.run
        (EntityAttributeGrid.construct (fun row => decide (row = 0)) (fun index => index))
        [EntityAttributeGrid.Event.currentChanged ⟨true, 0, 0⟩ [⟨true, 0, 0⟩],
          EntityAttributeGrid.Event.nodesDidChange false,
          EntityAttributeGrid.Event.currentChanged ⟨true, 1, 0⟩ [⟨true, 1, 0⟩]]).map
      (fun g => (g.removeRowShortcutEnabled, g.removeRowAlternateShortcutEnabled,
        g.removePropertiesButtonEnabled, g.canRemoveSelected)))
      = some (true, true, true, false) ∧
    (EntityAttributeGrid.run
        (EntityAttributeGrid.construct (fun row => decide (row = 0)) (fun index => index))
        [EntityAttributeGrid.Event.currentChanged ⟨true, 0, 0⟩ [⟨true, 0, 0⟩],
          EntityAttributeGrid.Event.nodesDidChange false,
          EntityAttributeGrid.Event.currentChanged ⟨true, 1, 0⟩ [⟨true, 1, 0⟩],
          EntityAttributeGrid.Event.deleteShortcutActivated]).isNone = true ∧
    (EntityAttributeGrid.run
        (EntityAttributeGrid.construct (fun row => decide (row = 0)) (fun index => index))
        [EntityAttributeGrid.Event.currentChanged ⟨true, 0, 0⟩ [⟨true, 0, 0⟩],
          EntityAttributeGrid.Event.nodesDidChange false,
          EntityAttributeGrid.Event.currentChanged ⟨true, 1, 0⟩ [⟨true, 1, 0⟩],
          EntityAttributeGrid.Event.backspaceShortcutActivated]).isNone = true ∧
    (EntityAttributeGrid.run
        (EntityAttributeGrid.construct (fun row => decide (row = 0)) (fun index => index))
        [EntityAttributeGrid.Event.currentChanged ⟨true, 0, 0⟩ [⟨true, 0, 0⟩],
          EntityAttributeGrid.Event.nodesDidChange false,
          EntityAttributeGrid.Event.currentChanged ⟨true, 1, 0⟩ [⟨true, 1, 0⟩],
          EntityAttributeGrid.Event.removeButtonClicked]).isNone = true := by
  decide

theorem mem_setInsert (x r : Int) (l : List Int) :
    r ∈ setInsert x l ↔ r = x ∨ r ∈ l := by
  induction l with
  | nil => simp [setInsert]
  | cons y ys ih =>
    simp only [setInsert]
    split
    · simp
    · split
      · rename_i hxy
        subst hxy
        simp
      · simp only [List.mem_cons, ih]
        tauto

/-- Insertion keeps the list strictly ascending, as a `std::set<int>` is. -/
theorem setInsert_sorted (x : Int) (l : List Int) (h : l.Pairwise (fun a b => a < b)) :
    (setInsert x l).Pairwise (fun a b => a < b) := by
  induction l with
  | nil => simp [setInsert]
  | cons y ys ih =>
    have hy := (List.pairwise_cons.mp h).1
    have hys := (List.pairwise_cons.mp h).2
    simp only [setInsert]
    split
    · rename_i hlt
      refine List.pairwise_cons.mpr ⟨?_, h⟩
      intro a ha
      rcases List.mem_cons.mp ha with rfl | ha
      · exact hlt
      · exact lt_trans hlt (hy a ha)
    · split
      · exact h
      · rename_i hnlt hne
        refine List.pairwise_cons.mpr ⟨?_, ih hys⟩
        intro a ha
        rcases (mem_setInsert x a ys).mp ha with rfl | ha
        · omega
        · exact hy a ha

/-- The rows collected by the loop over the selected indexes (lines 132-137). -/
theorem mem_selected_foldl (mapToSource : QModelIndex → QModelIndex)
    (selectedIndexes : List QModelIndex) (r : Int) :
    ∀ result : List Int,
      r ∈ selectedIndexes.foldl
          (fun result index =>
            if (mapToSource index).valid then setInsert (mapToSource index).row result
            else result)
          result
        ↔ r ∈ result ∨ ∃ index ∈ selectedIndexes,
            (mapToSource index).valid = true ∧ (mapToSource index).row = r := by
  induction selectedIndexes with
  | nil => intro result; simp
  | cons index rest ih =>
    intro result
    rw [List.foldl_cons, ih]
    by_cases hv : (mapToSource index).valid = true
    · simp only [hv, if_true, mem_setInsert, List.mem_cons, exists_eq_or_imp, true_and]
      constructor
      · rintro ((h | h) | h)
        · exact Or.inr (Or.inl h.symm)
        · exact Or.inl h
        · exact Or.inr (Or.inr h)
      · rintro (h | h | h)
        · exact Or.inl (Or.inr h)
        · exact Or.inl (Or.inl h.symm)
        · exact Or.inr h
    · simp only [hv, Bool.false_eq_true, if_false, List.mem_cons, exists_eq_or_imp,
        false_and, false_or]

theorem sorted_selected_foldl (mapToSource : QModelIndex → QModelIndex)
    (selectedIndexes : List QModelIndex) :
    ∀ result : List Int, result.Pairwise (fun a b => a < b) →
      (selectedIndexes.foldl
          (fun result index =>
            if (mapToSource index).valid then setInsert (mapToSource index).row result
            else result)
          result).Pairwise (fun a b => a < b) := by
  induction selectedIndexes with
  | nil => intro result h; simpa using h
  | cons index rest ih =>
    intro result h
    rw [List.foldl_cons]
    apply ih
    split
    · exact setInsert_sorted _ _ h
    · exact h

theorem canRemoveLoop_iff (canRemove : Int → Bool) (rows : List Int) :
    canRemoveLoop canRemove rows = true ↔ ∀ row ∈ rows, canRemove row = true := by
  induction rows with
  | nil => simp [canRemoveLoop]
  | cons row rest ih =>
    cases hrow : canRemove row with
    | false => simp [canRemoveLoop, hrow]
    | true => simp [canRemoveLoop, hrow, ih]

/-- C11: the set returned by `selectedRowsAndCursorRow` holds exactly the source
rows of the current index, if it maps to a valid index, and of the selected
indexes that map to valid ones, each row once in ascending order;
`canRemoveSelectedAttributes` is true exactly when that set is non-empty and
`canRemove` holds for every row in it; and with neither a valid current index
nor a valid selected index it is false. -/
theorem canRemoveSelectedAttributes_iff (canRemove : Int → Bool)
    (mapToSource : QModelIndex → QModelIndex) (currentIndex : QModelIndex)
    (selectedIndexes : List QModelIndex) :
    (∀ r, r ∈ selectedRowsAndCursorRow mapToSource currentIndex selectedIndexes ↔
      ((mapToSource currentIndex).valid = true ∧ (mapToSource currentIndex).row = r) ∨
      ∃ index ∈ selectedIndexes,
        (mapToSource index).valid = true ∧ (mapToSource index).row = r) ∧
    (selectedRowsAndCursorRow mapToSource currentIndex selectedIndexes).Pairwise
      (fun a b => a < b) ∧
    (canRemoveSelectedAttributes canRemove mapToSource currentIndex selectedIndexes = true ↔
      selectedRowsAndCursorRow mapToSource currentIndex selectedIndexes ≠ [] ∧
      ∀ row ∈ selectedRowsAndCursorRow mapToSource currentIndex selectedIndexes,
        canRemove row = true) ∧
    ((mapToSource currentIndex).valid = false →
      (∀ index ∈ selectedIndexes, (mapToSource index).valid = false) →
      canRemoveSelectedAttributes canRemove mapToSource currentIndex selectedIndexes
        = false) := by
  have hmem : ∀ r, r ∈ selectedRowsAndCursorRow mapToSource currentIndex selectedIndexes ↔
      ((mapToSource currentIndex).valid = true ∧ (mapToSource currentIndex).row = r) ∨
      ∃ index ∈ selectedIndexes,
        (mapToSource index).valid = true ∧ (mapToSource index).row = r := by
    intro r
    simp only [selectedRowsAndCursorRow]
    rw [mem_selected_foldl]
    by_cases hv : (mapToSource currentIndex).valid = true
    · simp only [hv, if_true, mem_setInsert, List.not_mem_nil, or_false, true_and]
      constructor
      · rintro (h | h)
        · exact Or.inl h.symm
        · exact Or.inr h
      · rintro (h | h)
        · exact Or.inl h.symm
        · exact Or.inr h
    · simp only [hv, Bool.false_eq_true, if_false, List.not_mem_nil, false_and]
  have hiff : canRemoveSelectedAttributes canRemove mapToSource currentIndex selectedIndexes
        = true ↔
      selectedRowsAndCursorRow mapToSource currentIndex selectedIndexes ≠ [] ∧
      ∀ row ∈ selectedRowsAndCursorRow mapToSource currentIndex selectedIndexes,
        canRemove row = true := by
    simp only [canRemoveSelectedAttributes]
    cases hrows : selectedRowsAndCursorRow mapToSource currentIndex selectedIndexes with
    | nil => simp
    | cons row rest =>
      simp only [List.isEmpty_cons, Bool.false_eq_true, if_false, ne_eq, reduceCtorEq,
        not_false_eq_true, true_and]
      exact canRemoveLoop_iff canRemove (row :: rest)
  refine ⟨hmem, ?_, hiff, ?_⟩
  · simp only [selectedRowsAndCursorRow]
    apply sorted_selected_foldl
    split
    · simp [setInsert]
    · exact List.Pairwise.nil
  · intro hcur hsel
    rw [← Bool.not_eq_true, hiff]
    rintro ⟨hne, _⟩
    apply hne
    apply List.eq_nil_iff_forall_not_mem.mpr
    intro r hr
    rcases (hmem r).mp hr with ⟨hv, _⟩ | ⟨index, hi, hv, _⟩
    · rw [hcur] at hv
      exact absurd hv (by decide)
    · rw [hsel index hi] at hv
      exact absurd hv (by decide)

end View

end TrenchBroom
